import Mathlib

/-!
# Verification of the General Download Renamer filename engine

Shallow embedding of the filename templating and classification engine:
`sanitizeFilename`, `splitFilename`, `processPattern`, `getCategoryForFile`
(from `utils/filenameUtils.js`) and the custom-placeholder derivation loop
of `processDownload` (from `background/service-worker.js`).

Strings are modelled by Lean `String` (a wrapper around `List Char`); the
JavaScript string primitives used by the source (`replace` with a character
class, `lastIndexOf`, `substring`, `split(',')`, `trim`, `toLowerCase`,
`includes`, `Array.join`, `Array.filter`) are given explicit data-level
definitions below, each annotated with the JS primitive it models.
-/

namespace Renamer

/-- The character class of the source regex `/[\/\\:*?"<>|]/` in
`sanitizeFilename`: each such character is replaced by an underscore,
any other character is kept. -/
def sanitizeChar (c : Char) : Char :=
  if c = '/' ∨ c = '\\' ∨ c = ':' ∨ c = '*' ∨ c = '?' ∨ c = '"' ∨
     c = '<' ∨ c = '>' ∨ c = '|' then '_' else c

/-- `sanitizeFilename(filename)`: `filename.replace(/[\/\\:*?"<>|]/g, '_')` —
a global single-character-class replace is a character-wise map. -/
def sanitizeFilename (filename : String) : String :=
  ⟨filename.data.map sanitizeChar⟩

/-- The nine filesystem-illegal characters listed by the spec (§6,
"Sanitization charset"): `\ / : * ? " < > |`. -/
def illegalChars : List Char := ['\\', '/', ':', '*', '?', '"', '<', '>', '|']

/-- JavaScript `String.prototype.lastIndexOf` for a single character,
on the character list: index of the last occurrence, `-1` if absent. -/
def lastIndexOfChar (c : Char) : List Char → Int
  | [] => -1
  | a :: rest =>
    if lastIndexOfChar c rest ≥ 0 then lastIndexOfChar c rest + 1
    else if a = c then 0 else -1

/-- `splitFilename(filename)`: splits at the last `.`; if there is no dot
or it is at index 0, the whole string is the name and the extension is
empty; otherwise `name = filename.substring(0, lastDotIndex)` and
`ext = filename.substring(lastDotIndex)` (the extension keeps the dot). -/
def splitFilename (filename : String) : String × String :=
  if lastIndexOfChar '.' filename.data ≤ 0 then
    (filename, "")
  else
    (⟨filename.data.take (lastIndexOfChar '.' filename.data).toNat⟩,
     ⟨filename.data.drop (lastIndexOfChar '.' filename.data).toNat⟩)

/-- JavaScript `String.prototype.toLowerCase`, character-wise. -/
def toLowerStr (s : String) : String :=
  ⟨s.data.map Char.toLower⟩

/-- JavaScript `String.prototype.trim`: drop whitespace from both ends. -/
def trimStr (s : String) : String :=
  ⟨((s.data.dropWhile Char.isWhitespace).reverse.dropWhile Char.isWhitespace).reverse⟩

/-- JavaScript `String.prototype.split` with a single-character separator:
`"a,b".split(',') = ["a","b"]`, `"".split(',') = [""]`, `"a,".split(',') = ["a",""]`. -/
def splitChar (c : Char) : List Char → List (List Char)
  | [] => [[]]
  | a :: rest =>
    let r := splitChar c rest
    if a = c then [] :: r
    else
      match r with
      | h :: t => (a :: h) :: t
      | [] => [[a]]

/-- A category rule `{ name, extensions }` where `extensions` is a
comma-separated list of bare extensions. -/
structure CategoryRule where
  name : String
  extensions : String
deriving DecidableEq, Repr

/-- `DEFAULT_CATEGORY_RULES` from `filenameUtils.js`. -/
def DEFAULT_CATEGORY_RULES : List CategoryRule := [
  ⟨"Documents", "pdf,doc,docx,odt,rtf,txt,md"⟩,
  ⟨"Spreadsheets", "xls,xlsx,csv,ods,xml"⟩,
  ⟨"Presentations", "ppt,pptx,odp"⟩,
  ⟨"Images", "jpg,jpeg,png,gif,bmp,svg,webp,heic,heif"⟩,
  ⟨"Design & RAW", "psd,ai,eps,indd,sketch,fig,cr2,nef,arw,dng"⟩,
  ⟨"Audio", "mp3,wav,aac,flac,m4a,ogg"⟩,
  ⟨"Videos", "mp4,mov,avi,mkv,wmv,flv,webm"⟩,
  ⟨"Archives", "zip,rar,7z,tar,gz,bz2"⟩,
  ⟨"Code", "html,css,js,json,py,java,cpp,sh,ps1"⟩,
  ⟨"Installers", "exe,dmg,pkg,msi,deb,app"⟩,
  ⟨"Fonts", "ttf,otf,woff,woff2"⟩]

/-- `rule.extensions.split(',').map(e => e.trim().toLowerCase())`. -/
def ruleTokens (r : CategoryRule) : List String :=
  (splitChar ',' r.extensions.data).map (fun t => toLowerStr (trimStr ⟨t⟩))

/-- The per-rule condition of the `for (const rule of rules)` loop of
`getCategoryForFile`: `rule.name` and `rule.extensions` are truthy
(non-empty) and the rule's extension token list contains the extension. -/
def ruleMatches (extension : String) (r : CategoryRule) : Prop :=
  r.name ≠ "" ∧ r.extensions ≠ "" ∧ extension ∈ ruleTokens r

instance (extension : String) (r : CategoryRule) : Decidable (ruleMatches extension r) :=
  inferInstanceAs (Decidable (_ ∧ _ ∧ _))

/-- The `for (const rule of rules)` loop of `getCategoryForFile`:
skip rules with a falsy `name` or `extensions`, return the name of the
first rule whose extension token list contains the extension. -/
def findCategory (extension : String) : List CategoryRule → Option String
  | [] => none
  | r :: rs =>
    if ruleMatches extension r then some r.name
    else findCategory extension rs

/-- `(customRules && Array.isArray(customRules) && customRules.length > 0)
? customRules : DEFAULT_CATEGORY_RULES`; `none` models a null/non-array
argument. -/
def effectiveRules : Option (List CategoryRule) → List CategoryRule
  | some rs => if rs.length > 0 then rs else DEFAULT_CATEGORY_RULES
  | none => DEFAULT_CATEGORY_RULES

/-- The extension computed by `getCategoryForFile`:
`ext.startsWith('.') ? ext.substring(1).toLowerCase() : ext.toLowerCase()`
(`startsWith('.')` on a single character is a first-character test). -/
def fileExtension (filename : String) : String :=
  match (splitFilename filename).2.data with
  | '.' :: r => toLowerStr ⟨r⟩
  | _ => toLowerStr (splitFilename filename).2

/-- `getCategoryForFile(filename, customRules)` from `filenameUtils.js`. -/
def getCategoryForFile (filename : String) (customRules : Option (List CategoryRule)) : String :=
  if filename = "" then "unknown"
  else if fileExtension filename = "" then "unknown"
  else (findCategory (fileExtension filename) (effectiveRules customRules)).getD "unknown"

/-- Fueled worker for `extractTokens`.  One step of the global regex scan
`pattern.match(/\x7b([^\x7d]+)\x7d/g)`: at a `\x7b`, the greedy `[^\x7d]+`
takes the (non-empty) run of characters up to the first following `\x7d`;
on success the scan resumes after that `\x7d`, on failure (empty body or
no closing brace) it resumes at the next character.  The fuel, initialised
to the list length, only serves structural termination and is never
exhausted. -/
def extractGo : Nat → List Char → List (List Char)
  | _, [] => []
  | 0, _ :: _ => []
  | fuel + 1, c :: rest =>
    if c = '{' then
      if (rest.dropWhile (fun x => x != '}')).isEmpty then extractGo fuel rest
      else if rest.takeWhile (fun x => x != '}') = [] then extractGo fuel rest
      else rest.takeWhile (fun x => x != '}') ::
        extractGo fuel (rest.dropWhile (fun x => x != '}')).tail
    else extractGo fuel rest

/-- All capture groups of `pattern.match(/\x7b([^\x7d]+)\x7d/g)`, in
left-to-right order. -/
def extractTokens (l : List Char) : List (List Char) :=
  extractGo l.length l

/-- The list `placeholdersInPattern` computed at the top of
`processPattern`: brace-delimited tokens of the pattern, braces stripped
(`p.slice(1, -1)`), with the reserved name `ext` filtered out. -/
def placeholdersInPattern (pattern : String) : List String :=
  ((extractTokens pattern.data).map (fun p => (⟨p⟩ : String))).filter (fun p => p ≠ "ext")

/-- The value bag: a JavaScript object mapping placeholder names to string
values.  Lookup finds the most recent binding; assignment prepends. -/
def ValueBag : Type := List (String × String)

/-- `bag[k]` as an `Option`: `none` models `undefined`. -/
def ValueBag.get (bag : ValueBag) (k : String) : Option String :=
  (List.find? (fun p => p.1 == k) bag).map Prod.snd

/-- `bag[k] = v`. -/
def ValueBag.set (bag : ValueBag) (k v : String) : ValueBag :=
  (k, v) :: bag

/-- The list `processedValues` of `processPattern`: each placeholder name
mapped to its value, a missing (`undefined`/`null`) value becoming `''`. -/
def processedValues (pattern : String) (values : ValueBag) : List String :=
  (placeholdersInPattern pattern).map (fun ph => (values.get ph).getD "")

/-- JavaScript `Array.prototype.join(sep)`. -/
def joinSep (sep : String) : List String → String
  | [] => ""
  | [v] => v
  | v :: w :: vs => v ++ sep ++ joinSep sep (w :: vs)

/-- The `joinedString` of `processPattern` — the assembled name before the
extension is appended: with an empty separator all values are concatenated,
otherwise values equal to `''` are filtered out and the rest joined with
the separator. -/
def preExtensionString (pattern : String) (values : ValueBag) (separator : String) : String :=
  if separator = "" then joinSep "" (processedValues pattern values)
  else joinSep separator ((processedValues pattern values).filter (fun v => v ≠ ""))

/-- `processPattern(pattern, values, separator)` from `filenameUtils.js`:
the joined string followed by `values['ext'] || ''`. -/
def processPattern (pattern : String) (values : ValueBag) (separator : String) : String :=
  preExtensionString pattern values separator ++ ((ValueBag.get values "ext").getD "")

/-- A custom placeholder definition `{ name, base, regex, keywords }`
as read from configuration (missing fields already normalised to `''`,
as the service worker does with `String(def.name)` etc.). -/
structure CustomPlaceholderDef where
  name : String
  base : String
  regex : String
  keywords : String
deriving DecidableEq, Repr

/-- Outcome of `new RegExp(regexStr)` followed by `sourceValue.match(re)`:
the constructor may throw (`malformed`), the match may fail (`noMatch`),
or succeed with capture group 1 absent (`matched none`) or present. -/
inductive RegexOutcome where
  | malformed : RegexOutcome
  | noMatch : RegexOutcome
  | matched : Option String → RegexOutcome
deriving DecidableEq, Repr

/-- The JavaScript regex engine, abstracted as an oracle from the regex
source string and the subject string to the observed outcome. -/
def RegexEngine : Type := String → String → RegexOutcome

/-- The value the `try`/`catch` block stores:
`(m && m[1]) ? String(m[1]) : ''` with `''` on a thrown constructor —
an absent or empty (falsy) first capture group yields `''`. -/
def regexValue (rx : RegexEngine) (regexStr sourceValue : String) : String :=
  match rx regexStr sourceValue with
  | .malformed => ""
  | .noMatch => ""
  | .matched none => ""
  | .matched (some g) => if g = "" then "" else g

/-- JavaScript `String.prototype.includes`: `needle` occurs as a
contiguous substring of the list. -/
def containsSub (needle : List Char) : List Char → Bool
  | [] => needle.isEmpty
  | a :: rest => needle.isPrefixOf (a :: rest) || containsSub needle rest

/-- The keyword gate: split `keywords` on `,`, trim, drop empty tokens;
an empty list passes unconditionally, otherwise some keyword must be a
case-insensitive substring of the source value
(`keywords.some(k => sourceValue.toLowerCase().includes(k.toLowerCase()))`). -/
def gatePasses (keywordsRaw sourceValue : String) : Bool :=
  let keywords := (((splitChar ',' keywordsRaw.data).map
    (fun k => trimStr ⟨k⟩)).filter (fun k => k ≠ ""))
  keywords.isEmpty ||
    keywords.any (fun k => containsSub (toLowerStr k).data (toLowerStr sourceValue).data)

/-- One iteration of the `for (const def of customPlaceholders)` loop in
`processDownload`: skip definitions with an empty `name`, `base` or
`regex` without writing; otherwise read `placeholders[from] || ''`,
neutralise to `''` on an empty source, a failed keyword gate, or any
regex failure, and else store the first capture group. -/
def deriveOne (rx : RegexEngine) (placeholders : ValueBag) (d : CustomPlaceholderDef) : ValueBag :=
  if d.name = "" ∨ d.base = "" ∨ d.regex = "" then placeholders
  else if (placeholders.get d.base).getD "" = "" then placeholders.set d.name ""
  else if gatePasses d.keywords ((placeholders.get d.base).getD "") then
    placeholders.set d.name (regexValue rx d.regex ((placeholders.get d.base).getD ""))
  else placeholders.set d.name ""

/-- The value a (non-skipped) definition stores for its name, read off the
current bag: the branch structure of `deriveOne` without the write. -/
def derivedValue (rx : RegexEngine) (placeholders : ValueBag) (d : CustomPlaceholderDef) : String :=
  if (placeholders.get d.base).getD "" = "" then ""
  else if gatePasses d.keywords ((placeholders.get d.base).getD "") then
    regexValue rx d.regex ((placeholders.get d.base).getD "")
  else ""

/-- The whole custom-placeholder loop, threading the shared bag through
the definitions in list order. -/
def deriveCustom (rx : RegexEngine) (placeholders : ValueBag)
    (defs : List CustomPlaceholderDef) : ValueBag :=
  defs.foldl (deriveOne rx) placeholders

/-- A pattern assembled from literal/placeholder segments followed by a
trailing literal: `lit1{name1}lit2{name2}...tail`. -/
def renderPattern (segs : List (String × String)) (tail : String) : String :=
  segs.foldr (fun seg acc => seg.1 ++ "\x7b" ++ seg.2 ++ "\x7d" ++ acc) tail

/-! ## Sanity checks: concrete evaluations of the embedded functions -/

example : extractTokens "{date}_{originalFilename}{ext}".data =
    ["date".data, "originalFilename".data, "ext".data] := by decide
example : placeholdersInPattern "{date}_{originalFilename}{ext}" = ["date", "originalFilename"] := by
  decide
example : extractTokens ['\x7b', 'a', '\x7b', 'b', '\x7d'] = [['a', '\x7b', 'b']] := by decide
example : extractTokens ['\x7b', '\x7d', 'x', '\x7b', 'y', '\x7d'] = [['y']] := by decide
example : extractTokens ['\x7b', 'a', 'b'] = [] := by decide
example : processPattern "{date}_{originalFilename}{ext}"
    [("date", "20230101"), ("originalFilename", "report"), ("ext", ".pdf")] "_" =
    "20230101_report.pdf" := by decide
example : processPattern "{a}{b}{c}{ext}" [("a", "x"), ("b", ""), ("c", "y"), ("ext", ".t")] "_" =
    "x_y.t" := by decide

example :
    (deriveCustom (fun _ _ => .matched (some "ABC-123"))
      [("tabUrl", "https://x/browse/ABC-123")]
      [⟨"ticket", "tabUrl", "([A-Z]+-0-9+)", "browse,jira"⟩]).get "ticket" =
    some "ABC-123" := by decide
example :
    (deriveCustom (fun _ _ => .matched (some "ABC-123"))
      [("tabUrl", "https://x/browse/ABC-123")]
      [⟨"ticket", "tabUrl", "([A-Z]+-0-9+)", "nomatch"⟩]).get "ticket" =
    some "" := by decide

example : sanitizeFilename "a/b:c" = "a_b_c" := by decide
example : splitFilename "report.PDF" = ("report", ".PDF") := by decide
example : splitFilename ".gitignore" = (".gitignore", "") := by decide
example : splitFilename "archive" = ("archive", "") := by decide
example : getCategoryForFile "report.PDF" (some DEFAULT_CATEGORY_RULES) = "Documents" := by decide
example : getCategoryForFile "a.pdf" (some []) = "Documents" := by decide
example : getCategoryForFile "archive" none = "unknown" := by decide

/-! ## Basic string facts -/

theorem string_mk_data (s : String) : (⟨s.data⟩ : String) = s := rfl

theorem string_data_ne_nil {s : String} (h : s ≠ "") : s.data ≠ [] := by
  intro hd
  exact h (congrArg String.mk hd)

theorem string_append_data (s t : String) : (s ++ t).data = s.data ++ t.data := rfl

/-! ## Sanitizer (claims C7, C8) -/

theorem sanitizeChar_mem_illegal (c : Char) :
    sanitizeChar c = if c ∈ illegalChars then '_' else c := by
  by_cases h : c ∈ illegalChars
  · rw [if_pos h]
    fin_cases h <;> rfl
  · rw [if_neg h, sanitizeChar, if_neg]
    intro hc
    apply h
    rcases hc with h1 | h1 | h1 | h1 | h1 | h1 | h1 | h1 | h1 <;> subst h1 <;> decide

theorem sanitizeChar_idem (c : Char) : sanitizeChar (sanitizeChar c) = sanitizeChar c := by
  by_cases h : c = '/' ∨ c = '\\' ∨ c = ':' ∨ c = '*' ∨ c = '?' ∨ c = '"' ∨
      c = '<' ∨ c = '>' ∨ c = '|'
  · have hc : sanitizeChar c = '_' := by rw [sanitizeChar, if_pos h]
    rw [hc]
    decide
  · have hc : sanitizeChar c = c := by rw [sanitizeChar, if_neg h]
    rw [hc]
    exact hc

/-- C7.  For every input string, `sanitizeFilename` replaces every
occurrence of each of the nine literal characters `\ / : * ? " < > |` with
an underscore and leaves every other character unchanged (character-wise
map, hence no case/whitespace change), is total, and preserves the
length of the string; on the spec's example it yields
`"a_b_c_d_e_f_g_h_i"`. -/
theorem sanitizeFilename_charset_and_length :
    (∀ s : String, (sanitizeFilename s).length = s.length) ∧
    (∀ s : String, (sanitizeFilename s).data = s.data.map sanitizeChar) ∧
    (∀ c : Char, sanitizeChar c = if c ∈ illegalChars then '_' else c) ∧
    sanitizeFilename "a/b:c*d?e\"f<g>h|i" = "a_b_c_d_e_f_g_h_i" := by
  refine ⟨fun s => ?_, fun s => rfl, sanitizeChar_mem_illegal, by decide⟩
  show (s.data.map sanitizeChar).length = s.data.length
  simp

/-- C8.  `sanitizeFilename` is idempotent: sanitizing an already
sanitized string changes nothing. -/
theorem sanitizeFilename_idem (s : String) :
    sanitizeFilename (sanitizeFilename s) = sanitizeFilename s := by
  show (⟨(s.data.map sanitizeChar).map sanitizeChar⟩ : String) = ⟨s.data.map sanitizeChar⟩
  rw [List.map_map]
  exact congrArg _ (List.map_congr_left fun c _ => sanitizeChar_idem c)

/-! ## splitFilename (claims C9, C10) -/

/-- C9.  `splitFilename` is lossless: the name part concatenated with the
extension part (which keeps its leading dot) is exactly the original
filename. -/
theorem splitFilename_lossless (filename : String) :
    (splitFilename filename).1 ++ (splitFilename filename).2 = filename := by
  unfold splitFilename
  by_cases h : lastIndexOfChar '.' filename.data ≤ 0
  · rw [if_pos h]
    show filename ++ "" = filename
    cases filename with
    | mk l => show (⟨l ++ []⟩ : String) = ⟨l⟩
              rw [List.append_nil]
  · rw [if_neg h]
    show (⟨_ ++ _⟩ : String) = filename
    rw [List.take_append_drop]

theorem lastIndexOfChar_of_not_mem (c : Char) :
    ∀ l : List Char, c ∉ l → lastIndexOfChar c l = -1
  | [], _ => rfl
  | a :: rest, h => by
    have hr : lastIndexOfChar c rest = -1 :=
      lastIndexOfChar_of_not_mem c rest (fun hm => h (List.mem_cons_of_mem a hm))
    have ha : ¬ a = c := fun e => h (e ▸ List.mem_cons_self a rest)
    simp only [lastIndexOfChar, hr]
    rw [if_neg (by decide), if_neg ha]

theorem splitFilename_of_no_dot (filename : String) (h : '.' ∉ filename.data) :
    splitFilename filename = (filename, "") := by
  unfold splitFilename
  rw [lastIndexOfChar_of_not_mem '.' filename.data h, if_pos (by decide : (-1 : Int) ≤ 0)]

theorem fileExtension_of_no_dot (filename : String) (h : '.' ∉ filename.data) :
    fileExtension filename = "" := by
  unfold fileExtension
  rw [splitFilename_of_no_dot filename h]
  rfl

theorem getCategoryForFile_of_ext_empty (filename : String) (rules : Option (List CategoryRule))
    (h : fileExtension filename = "") : getCategoryForFile filename rules = "unknown" := by
  unfold getCategoryForFile
  by_cases hf : filename = ""
  · rw [if_pos hf]
  · rw [if_neg hf, if_pos h]

/-- C10.  A filename whose only dot is its first character is treated as
having no extension: `splitFilename` returns the whole string as the name
with an empty `ext`, and `getCategoryForFile` returns `"unknown"` for it
whatever rules are supplied. -/
theorem splitFilename_leading_dot_only (s : String) (rest : List Char)
    (rules : Option (List CategoryRule))
    (hdata : s.data = '.' :: rest) (hrest : '.' ∉ rest) :
    splitFilename s = (s, "") ∧ getCategoryForFile s rules = "unknown" := by
  have hidx : lastIndexOfChar '.' s.data = 0 := by
    rw [hdata]
    simp [lastIndexOfChar, lastIndexOfChar_of_not_mem '.' rest hrest]
  have hsplit : splitFilename s = (s, "") := by
    unfold splitFilename
    rw [hidx, if_pos (by decide : (0 : Int) ≤ 0)]
  have hext : fileExtension s = "" := by
    unfold fileExtension
    rw [hsplit]
    rfl
  exact ⟨hsplit, getCategoryForFile_of_ext_empty s rules hext⟩

theorem splitFilename_leading_dot_only_witness :
    splitFilename ".gitignore" = (".gitignore", "") ∧
    getCategoryForFile ".gitignore" (some DEFAULT_CATEGORY_RULES) = "unknown" :=
  splitFilename_leading_dot_only ".gitignore" "gitignore".data (some DEFAULT_CATEGORY_RULES)
    (by decide) (by decide)

/-- C2 (amended).  `getCategoryForFile` returns `"unknown"` whenever the
filename has no extension (in particular whenever it has no dot), and
whenever no rule of the *effective* rule list (the supplied rules if they
form a non-empty list, the built-in defaults otherwise) matches the
extension.  An empty or invalid supplied rules list does not by itself
force `"unknown"`: the default rules are consulted instead. -/
theorem getCategoryForFile_unknown_cases (filename : String)
    (rules : Option (List CategoryRule)) :
    (fileExtension filename = "" → getCategoryForFile filename rules = "unknown") ∧
    (findCategory (fileExtension filename) (effectiveRules rules) = none →
      getCategoryForFile filename rules = "unknown") ∧
    ('.' ∉ filename.data → getCategoryForFile filename rules = "unknown") := by
  refine ⟨getCategoryForFile_of_ext_empty filename rules, fun hf => ?_,
    fun hd => getCategoryForFile_of_ext_empty filename rules (fileExtension_of_no_dot filename hd)⟩
  unfold getCategoryForFile
  by_cases h0 : filename = ""
  · rw [if_pos h0]
  · rw [if_neg h0]
    by_cases h1 : fileExtension filename = ""
    · rw [if_pos h1]
    · rw [if_neg h1, hf]
      rfl

theorem getCategoryForFile_unknown_cases_witness :
    getCategoryForFile "archive" none = "unknown" :=
  (getCategoryForFile_unknown_cases "archive" none).2.2 (by decide)

/-- C2 counterexample: with a supplied *empty* rules list the classifier
does not return `"unknown"` — it falls back to the default rules and
classifies `"a.pdf"` as `"Documents"`. -/
theorem getCategoryForFile_empty_rules_cex :
    getCategoryForFile "a.pdf" (some []) = "Documents" ∧
    getCategoryForFile "a.pdf" (some []) ≠ "unknown" := by decide

theorem effectiveRules_of_ne_nil (rs : List CategoryRule) (h : rs ≠ []) :
    effectiveRules (some rs) = rs := by
  show (if rs.length > 0 then rs else DEFAULT_CATEGORY_RULES) = rs
  rw [if_pos (List.length_pos.mpr h)]

theorem findCategory_first (extension : String) (pre post : List CategoryRule)
    (r : CategoryRule) (hr : ruleMatches extension r)
    (hpre : ∀ r' ∈ pre, ¬ ruleMatches extension r') :
    findCategory extension (pre ++ r :: post) = some r.name := by
  induction pre with
  | nil =>
    show findCategory extension (r :: post) = some r.name
    unfold findCategory
    rw [if_pos hr]
  | cons a pre ih =>
    show findCategory extension (a :: (pre ++ r :: post)) = some r.name
    unfold findCategory
    rw [if_neg (hpre a (List.mem_cons_self a pre))]
    exact ih (fun r' hm => hpre r' (List.mem_cons_of_mem a hm))

/-- C5.  For a filename with an extension, `getCategoryForFile` lower-cases
the extension, splits each rule's `extensions` on commas (tokens trimmed
and lower-cased — all folded into `ruleMatches`), and returns the name of
the first matching rule in list order, whatever the later rules (the
`post` part) contain; `classify("report.PDF", defaultRules)` is
`"Documents"`. -/
theorem getCategoryForFile_first_match :
    getCategoryForFile "report.PDF" (some DEFAULT_CATEGORY_RULES) = "Documents" ∧
    ∀ (filename : String) (pre post : List CategoryRule) (r : CategoryRule),
      ruleMatches (fileExtension filename) r →
      (∀ r' ∈ pre, ¬ ruleMatches (fileExtension filename) r') →
      fileExtension filename ≠ "" →
      getCategoryForFile filename (some (pre ++ r :: post)) = r.name := by
  refine ⟨by decide, fun filename pre post r hr hpre hext => ?_⟩
  have hfn : filename ≠ "" := by
    intro h0
    subst h0
    exact hext (by decide)
  unfold getCategoryForFile
  rw [if_neg hfn, if_neg hext, effectiveRules_of_ne_nil _ (by simp),
    findCategory_first _ pre post r hr hpre]
  rfl

theorem getCategoryForFile_first_match_witness :
    getCategoryForFile "x.txt" (some [⟨"A", "md"⟩, ⟨"B", "txt"⟩, ⟨"C", "txt"⟩]) = "B" :=
  getCategoryForFile_first_match.2 "x.txt" [⟨"A", "md"⟩] [⟨"C", "txt"⟩] ⟨"B", "txt"⟩
    (by decide) (by decide) (by decide)

/-! ## Custom placeholder deriver (claims C3, C4) -/

theorem bag_set_get (b : ValueBag) (k v : String) : (b.set k v).get k = some v := by
  simp [ValueBag.set, ValueBag.get, List.find?]

theorem deriveCustom_append (rx : RegexEngine) (bag : ValueBag)
    (ds : List CustomPlaceholderDef) (d : CustomPlaceholderDef) :
    deriveCustom rx bag (ds ++ [d]) = deriveOne rx (deriveCustom rx bag ds) d := by
  simp [deriveCustom, List.foldl_append]

theorem deriveOne_eq_set (rx : RegexEngine) (b : ValueBag) (d : CustomPlaceholderDef)
    (hn : d.name ≠ "") (hb : d.base ≠ "") (hr : d.regex ≠ "") :
    deriveOne rx b d = b.set d.name (derivedValue rx b d) := by
  unfold deriveOne derivedValue
  rw [if_neg (by simp [hn, hb, hr])]
  by_cases h1 : (b.get d.base).getD "" = ""
  · rw [if_pos h1, if_pos h1]
  · rw [if_neg h1, if_neg h1]
    by_cases h2 : gatePasses d.keywords ((b.get d.base).getD "") = true
    · rw [if_pos h2, if_pos h2]
    · rw [if_neg h2, if_neg h2]

/-- C3.  The deriver processes the definition list strictly in order,
each definition's value being written into the shared bag before the next
runs: a later definition whose `base` is an earlier definition's `name`
reads exactly the value that earlier definition just derived (chained
derivation), and a definition whose `base` is its own (not yet populated)
name reads an empty source value and stores `""` — no error, no cycle
detection. -/
theorem deriveCustom_ordered_chaining (rx : RegexEngine) (bag : ValueBag)
    (ds : List CustomPlaceholderDef) (d : CustomPlaceholderDef) :
    (deriveCustom rx bag (ds ++ [d]) = deriveOne rx (deriveCustom rx bag ds) d) ∧
    (d.name ≠ "" → d.base ≠ "" → d.regex ≠ "" →
      deriveCustom rx bag (ds ++ [d]) =
        (deriveCustom rx bag ds).set d.name (derivedValue rx (deriveCustom rx bag ds) d)) ∧
    (∀ e : CustomPlaceholderDef, e.name ≠ "" → e.base ≠ "" → e.regex ≠ "" → d.base = e.name →
      ((deriveCustom rx bag (ds ++ [e])).get d.base).getD "" =
        derivedValue rx (deriveCustom rx bag ds) e) ∧
    (d.name ≠ "" → d.base ≠ "" → d.regex ≠ "" → d.base = d.name →
      (bag.get d.name).getD "" = "" → deriveOne rx bag d = bag.set d.name "") := by
  refine ⟨deriveCustom_append rx bag ds d, fun hn hb hr => ?_,
    fun e hn hb hr hbase => ?_, fun hn hb hr hbase hempty => ?_⟩
  · rw [deriveCustom_append, deriveOne_eq_set rx _ d hn hb hr]
  · rw [deriveCustom_append, deriveOne_eq_set rx _ e hn hb hr, hbase, bag_set_get]
    rfl
  · unfold deriveOne
    rw [if_neg (by simp [hn, hb, hr]), hbase, if_pos hempty]

theorem deriveCustom_ordered_chaining_witness :
    ((deriveCustom (fun _ _ => RegexOutcome.matched (some "V")) [("originalFilename", "hello")]
        ([] ++ [⟨"first", "originalFilename", "(h)", ""⟩])).get "first").getD "" =
      derivedValue (fun _ _ => RegexOutcome.matched (some "V"))
        (deriveCustom (fun _ _ => RegexOutcome.matched (some "V"))
          [("originalFilename", "hello")] [])
        ⟨"first", "originalFilename", "(h)", ""⟩ :=
  (deriveCustom_ordered_chaining (fun _ _ => RegexOutcome.matched (some "V"))
      [("originalFilename", "hello")] [] ⟨"second", "first", "(x)", ""⟩).2.2.1
    ⟨"first", "originalFilename", "(h)", ""⟩ (by decide) (by decide) (by decide) rfl

/-- C4.  A definition whose regex fails — the constructor throws
(malformed), the match fails, or the first capture group is absent or
empty — stores `""` for its placeholder, and every subsequent definition
is still processed: the loop is never aborted. -/
theorem deriveCustom_regex_failure_neutralized (rx : RegexEngine) (bag : ValueBag)
    (ds₁ ds₂ : List CustomPlaceholderDef) (d : CustomPlaceholderDef)
    (hn : d.name ≠ "") (hb : d.base ≠ "") (hr : d.regex ≠ "")
    (hsrc : ((deriveCustom rx bag ds₁).get d.base).getD "" ≠ "")
    (hgate : gatePasses d.keywords (((deriveCustom rx bag ds₁).get d.base).getD "") = true)
    (hfail :
      rx d.regex (((deriveCustom rx bag ds₁).get d.base).getD "") = RegexOutcome.malformed ∨
      rx d.regex (((deriveCustom rx bag ds₁).get d.base).getD "") = RegexOutcome.noMatch ∨
      rx d.regex (((deriveCustom rx bag ds₁).get d.base).getD "") = RegexOutcome.matched none ∨
      rx d.regex (((deriveCustom rx bag ds₁).get d.base).getD "") =
        RegexOutcome.matched (some "")) :
    deriveCustom rx bag (ds₁ ++ d :: ds₂) =
      deriveCustom rx ((deriveCustom rx bag ds₁).set d.name "") ds₂ := by
  have hval : regexValue rx d.regex (((deriveCustom rx bag ds₁).get d.base).getD "") = "" := by
    unfold regexValue
    rcases hfail with h | h | h | h <;> simp [h]
  have hstep : deriveOne rx (deriveCustom rx bag ds₁) d =
      (deriveCustom rx bag ds₁).set d.name "" := by
    unfold deriveOne
    rw [if_neg (by simp [hn, hb, hr]), if_neg hsrc, if_pos hgate, hval]
  calc deriveCustom rx bag (ds₁ ++ d :: ds₂)
      = List.foldl (deriveOne rx) (deriveOne rx (deriveCustom rx bag ds₁) d) ds₂ := by
        simp [deriveCustom, List.foldl_append]
    _ = deriveCustom rx ((deriveCustom rx bag ds₁).set d.name "") ds₂ := by
        rw [hstep]
        rfl

theorem deriveCustom_regex_failure_neutralized_witness :
    deriveCustom (fun _ _ => RegexOutcome.malformed) [("u", "hello")]
        ([] ++ ⟨"n", "u", "(x", ""⟩ :: [⟨"m", "n", "(y)", ""⟩]) =
      deriveCustom (fun _ _ => RegexOutcome.malformed)
        (ValueBag.set (deriveCustom (fun _ _ => RegexOutcome.malformed) [("u", "hello")] [])
          "n" "") [⟨"m", "n", "(y)", ""⟩] :=
  deriveCustom_regex_failure_neutralized (fun _ _ => RegexOutcome.malformed) [("u", "hello")]
    [] [⟨"m", "n", "(y)", ""⟩] ⟨"n", "u", "(x", ""⟩
    (by decide) (by decide) (by decide) (by decide) (by decide) (Or.inl rfl)

/-! ## Pattern parser (claim C6) -/

theorem takeWhile_append_stop {q : Char → Bool} :
    ∀ (p : List Char), (∀ x ∈ p, q x = true) → ∀ (s : Char), q s = false → ∀ (m : List Char),
      (p ++ s :: m).takeWhile q = p
  | [], _, s, hs, m => by simp [List.takeWhile_cons, hs]
  | a :: p, hp, s, hs, m => by
    have ha : q a = true := hp a (List.mem_cons_self a p)
    simp only [List.cons_append, List.takeWhile_cons, ha, if_true]
    rw [takeWhile_append_stop p (fun x hx => hp x (List.mem_cons_of_mem a hx)) s hs m]

theorem dropWhile_append_stop {q : Char → Bool} :
    ∀ (p : List Char), (∀ x ∈ p, q x = true) → ∀ (s : Char), q s = false → ∀ (m : List Char),
      (p ++ s :: m).dropWhile q = s :: m
  | [], _, s, hs, m => by simp [List.dropWhile_cons, hs]
  | a :: p, hp, s, hs, m => by
    have ha : q a = true := hp a (List.mem_cons_self a p)
    simp only [List.cons_append, List.dropWhile_cons, ha, if_true]
    exact dropWhile_append_stop p (fun x hx => hp x (List.mem_cons_of_mem a hx)) s hs m

theorem dropWhile_length_le (q : Char → Bool) : ∀ l : List Char, (l.dropWhile q).length ≤ l.length
  | [] => Nat.le_refl _
  | a :: l => by
    rw [List.dropWhile_cons]
    by_cases h : q a = true
    · rw [if_pos h]
      exact Nat.le_succ_of_le (dropWhile_length_le q l)
    · rw [if_neg h]

theorem dropWhile_tail_length_le (q : Char → Bool) (l : List Char) :
    ((l.dropWhile q).tail).length ≤ l.length := by
  calc ((l.dropWhile q).tail).length ≤ (l.dropWhile q).length := by
        rw [List.length_tail]
        exact Nat.sub_le _ _
    _ ≤ l.length := dropWhile_length_le q l

theorem extractGo_fuel_eq :
    ∀ (fuel : Nat) (l : List Char), l.length ≤ fuel → ∀ (fuel' : Nat), l.length ≤ fuel' →
      extractGo fuel l = extractGo fuel' l := by
  intro fuel
  induction fuel with
  | zero =>
    intro l hl fuel' _
    have : l = [] := List.eq_nil_of_length_eq_zero (Nat.le_zero.mp hl)
    subst this
    cases fuel' <;> rfl
  | succ n ih =>
    intro l hl fuel' hl'
    cases l with
    | nil => cases fuel' <;> rfl
    | cons c rest =>
      have hrest : rest.length ≤ n := Nat.le_of_succ_le_succ (by simpa using hl)
      cases fuel' with
      | zero => exact absurd hl' (by simp)
      | succ m =>
        have hrest' : rest.length ≤ m := Nat.le_of_succ_le_succ (by simpa using hl')
        have htail : ((rest.dropWhile (fun x => x != '}')).tail).length ≤ rest.length :=
          dropWhile_tail_length_le _ rest
        simp only [extractGo]
        by_cases hc : c = '{'
        · rw [if_pos hc, if_pos hc]
          by_cases hdw : ((rest.dropWhile (fun x => x != '}')).isEmpty) = true
          · rw [if_pos hdw, if_pos hdw]
            exact ih rest hrest m hrest'
          · rw [if_neg hdw, if_neg hdw]
            by_cases htw : rest.takeWhile (fun x => x != '}') = []
            · rw [if_pos htw, if_pos htw]
              exact ih rest hrest m hrest'
            · rw [if_neg htw, if_neg htw]
              rw [ih _ (Nat.le_trans htail hrest) m (Nat.le_trans htail hrest')]
        · rw [if_neg hc, if_neg hc]
          exact ih rest hrest m hrest'

theorem extractTokens_cons_ne (c : Char) (l : List Char) (h : c ≠ '{') :
    extractTokens (c :: l) = extractTokens l := by
  show extractGo (c :: l).length (c :: l) = extractGo l.length l
  rw [List.length_cons]
  simp only [extractGo]
  rw [if_neg h]

theorem extractTokens_match (body after : List Char) (hb : body ≠ []) (hcl : '}' ∉ body) :
    extractTokens ('{' :: (body ++ '}' :: after)) = body :: extractTokens after := by
  have hq : ∀ x ∈ body, (x != '}') = true := by
    intro x hx
    simp only [bne_iff_ne, ne_eq, decide_eq_true_eq]
    exact fun e => hcl (e ▸ hx)
  have htw := takeWhile_append_stop body hq '}' (by decide) after
  have hdw := dropWhile_append_stop body hq '}' (by decide) after
  have hne : (((body ++ '}' :: after).dropWhile (fun x => x != '}')).isEmpty) = false := by
    rw [hdw]
    rfl
  show extractGo ('{' :: (body ++ '}' :: after)).length ('{' :: (body ++ '}' :: after)) = _
  rw [List.length_cons]
  simp only [extractGo]
  rw [if_pos trivial, hne, if_neg Bool.false_ne_true, htw, if_neg hb, hdw]
  congr 1
  refine extractGo_fuel_eq _ after ?_ after.length (Nat.le_refl _)
  simp only [List.length_append, List.length_cons]
  omega

theorem extractTokens_skip (p : List Char) (hp : '{' ∉ p) (m : List Char) :
    extractTokens (p ++ m) = extractTokens m := by
  induction p with
  | nil => rfl
  | cons a p ih =>
    have ha : a ≠ '{' := fun e => hp (e ▸ List.mem_cons_self a p)
    rw [List.cons_append, extractTokens_cons_ne a _ ha,
      ih (fun hx => hp (List.mem_cons_of_mem a hx))]

theorem renderPattern_cons (seg : String × String) (segs : List (String × String))
    (tail : String) :
    renderPattern (seg :: segs) tail =
      seg.1 ++ "\x7b" ++ seg.2 ++ "\x7d" ++ renderPattern segs tail :=
  rfl

theorem extractTokens_render :
    ∀ (segs : List (String × String)) (tail : String),
      (∀ seg ∈ segs, '{' ∉ (Prod.fst seg).data ∧ Prod.snd seg ≠ "" ∧ '}' ∉ (Prod.snd seg).data) →
      '{' ∉ tail.data →
      extractTokens (renderPattern segs tail).data = segs.map (fun seg => (Prod.snd seg).data)
  | [], tail, _, ht => by
    show extractTokens tail.data = []
    have h := extractTokens_skip tail.data ht []
    rw [List.append_nil] at h
    rw [h]
    rfl
  | seg :: segs, tail, hs, ht => by
    have h1 := hs seg (List.mem_cons_self seg segs)
    have ih := extractTokens_render segs tail
      (fun s hx => hs s (List.mem_cons_of_mem seg hx)) ht
    rw [renderPattern_cons]
    have hdata : (seg.1 ++ "\x7b" ++ seg.2 ++ "\x7d" ++ renderPattern segs tail).data =
        seg.1.data ++ ('{' :: (seg.2.data ++ '}' :: (renderPattern segs tail).data)) := by
      simp [string_append_data, List.append_assoc]
    rw [hdata, extractTokens_skip seg.1.data h1.1,
      extractTokens_match seg.2.data _ (string_data_ne_nil h1.2.1) h1.2.2, ih]
    rfl

/-- C6.  On any pattern assembled from brace-free literals around
`{name}` tokens (names non-empty and brace-free), the parser extracts
exactly the token names, in left-to-right order with duplicates preserved,
braces stripped, and every occurrence of the reserved name `ext` removed. -/
theorem extractPlaceholders_spec (segs : List (String × String)) (tail : String)
    (hsegs : ∀ seg ∈ segs,
      '{' ∉ (Prod.fst seg).data ∧ Prod.snd seg ≠ "" ∧ '}' ∉ (Prod.snd seg).data)
    (htail : '{' ∉ tail.data) :
    placeholdersInPattern (renderPattern segs tail) =
      (segs.map Prod.snd).filter (fun n => n ≠ "ext") := by
  unfold placeholdersInPattern
  rw [extractTokens_render segs tail hsegs htail, List.map_map]
  rfl

theorem extractPlaceholders_spec_witness :
    placeholdersInPattern "{date}_{originalFilename}{ext}" = ["date", "originalFilename"] := by
  have h := extractPlaceholders_spec [("", "date"), ("_", "originalFilename"), ("", "ext")] ""
    (by decide) (by decide)
  have hr : renderPattern [("", "date"), ("_", "originalFilename"), ("", "ext")] "" =
      "{date}_{originalFilename}{ext}" := by decide
  rw [hr] at h
  rw [h]
  rfl

/-! ## Filename assembler (claim C1) -/

theorem mem_of_head?_eq_some {l : List Char} {a : Char} (h : l.head? = some a) : a ∈ l := by
  cases l with
  | nil => simp at h
  | cons x t =>
    rw [List.head?_cons] at h
    have hx := Option.some.inj h
    subst hx
    exact List.mem_cons_self x t

theorem mem_of_getLast?_eq_some {l : List Char} {a : Char} (h : l.getLast? = some a) :
    a ∈ l := by
  rcases List.mem_getLast?_eq_getLast (x := a) h with ⟨hne, heq⟩
  exact heq ▸ List.getLast_mem hne

theorem chain'_of_not_mem (c : Char) : ∀ (l : List Char), c ∉ l →
    l.Chain' (fun a b => ¬(a = c ∧ b = c))
  | [], _ => List.chain'_nil
  | a :: l, h => by
    rw [List.chain'_cons']
    refine ⟨fun y _ hc => ?_, chain'_of_not_mem c l (fun hm => h (List.mem_cons_of_mem a hm))⟩
    rcases hc with ⟨h1, _⟩
    subst h1
    exact h (List.mem_cons_self a l)

theorem joinSep_cons_ne_nil (sep w : String) (vs : List String) (hw : w ≠ "") :
    (joinSep sep (w :: vs)).data ≠ [] := by
  cases vs with
  | nil => exact string_data_ne_nil hw
  | cons v vs =>
    show ((w ++ sep) ++ joinSep sep (v :: vs)).data ≠ []
    rw [string_append_data, string_append_data]
    intro h
    rcases List.append_eq_nil.mp h with ⟨h1, _⟩
    rcases List.append_eq_nil.mp h1 with ⟨h2, _⟩
    exact string_data_ne_nil hw h2

/-- Joining non-empty separator-free values with a single-character
separator yields a string with no two adjacent separator characters and
no separator at either end. -/
theorem joinSep_single_char (c : Char) :
    ∀ vs : List String, (∀ v ∈ vs, v ≠ "" ∧ c ∉ v.data) →
      (joinSep ⟨[c]⟩ vs).data.Chain' (fun a b => ¬(a = c ∧ b = c)) ∧
      (joinSep ⟨[c]⟩ vs).data.head? ≠ some c ∧
      (joinSep ⟨[c]⟩ vs).data.getLast? ≠ some c
  | [], _ => ⟨List.chain'_nil, by simp [joinSep], by simp [joinSep]⟩
  | [v], hv => by
    obtain ⟨hne, hnotmem⟩ := hv v (List.mem_cons_self v [])
    refine ⟨chain'_of_not_mem c v.data hnotmem, fun h => ?_, fun h => ?_⟩
    · exact hnotmem (mem_of_head?_eq_some h)
    · exact hnotmem (mem_of_getLast?_eq_some h)
  | v :: w :: vs, hv => by
    obtain ⟨hvne, hvnot⟩ := hv v (List.mem_cons_self _ _)
    have hsub : ∀ u ∈ w :: vs, u ≠ "" ∧ c ∉ u.data :=
      fun u hu => hv u (List.mem_cons_of_mem v hu)
    obtain ⟨ihchain, ihhead, ihlast⟩ := joinSep_single_char c (w :: vs) hsub
    have hMne : (joinSep ⟨[c]⟩ (w :: vs)).data ≠ [] :=
      joinSep_cons_ne_nil _ w vs (hsub w (List.mem_cons_self _ _)).1
    have hdata : (joinSep ⟨[c]⟩ (v :: w :: vs)).data =
        v.data ++ (c :: (joinSep ⟨[c]⟩ (w :: vs)).data) := by
      show ((v ++ ⟨[c]⟩) ++ joinSep ⟨[c]⟩ (w :: vs)).data = _
      rw [string_append_data, string_append_data]
      simp
    rw [hdata]
    refine ⟨?_, ?_, ?_⟩
    · rw [List.chain'_append]
      refine ⟨chain'_of_not_mem c v.data hvnot, ?_, ?_⟩
      · rw [List.chain'_cons']
        exact ⟨fun y hy hc => ihhead (hc.2 ▸ hy), ihchain⟩
      · intro x hx y _ hc
        exact hvnot (hc.1 ▸ mem_of_getLast?_eq_some hx)
    · cases hd : v.data with
      | nil => exact absurd hd (string_data_ne_nil hvne)
      | cons a t =>
        intro hsome
        rw [List.cons_append, List.head?_cons] at hsome
        have ha : a = c := Option.some.inj hsome
        exact hvnot (by rw [hd, ha]; exact List.mem_cons_self _ _)
    · rw [List.getLast?_append_cons]
      cases hM : (joinSep ⟨[c]⟩ (w :: vs)).data with
      | nil => exact absurd hM hMne
      | cons b t =>
        rw [List.getLast?_cons_cons]
        rw [hM] at ihlast
        exact ihlast

/-- C1.  Empty placeholder values are filtered out before joining: for any
non-empty separator the pre-extension string is the join of only the
non-empty resolved values; consequently, for the (single-character)
separators of the configuration, a separator character that occurs in no
resolved value never appears doubled, and never appears at the start or
the end of the pre-extension string — empty values alone can produce no
separator artifact. -/
theorem processPattern_no_separator_artifacts (pattern : String) (values : ValueBag) :
    (∀ s : String, s ≠ "" →
      preExtensionString pattern values s =
        joinSep s ((processedValues pattern values).filter (fun v => v ≠ ""))) ∧
    (∀ c : Char, (∀ v ∈ processedValues pattern values, c ∉ v.data) →
      ¬ [c, c] <:+: (preExtensionString pattern values ⟨[c]⟩).data ∧
      (preExtensionString pattern values ⟨[c]⟩).data.head? ≠ some c ∧
      (preExtensionString pattern values ⟨[c]⟩).data.getLast? ≠ some c) := by
  have hfilter : ∀ s : String, s ≠ "" →
      preExtensionString pattern values s =
        joinSep s ((processedValues pattern values).filter (fun v => v ≠ "")) := by
    intro s hs
    unfold preExtensionString
    rw [if_neg hs]
  refine ⟨hfilter, fun c hc => ?_⟩
  have hsep : (⟨[c]⟩ : String) ≠ "" := by
    intro h
    have := congrArg String.data h
    simp at this
  have hvs : ∀ v ∈ (processedValues pattern values).filter (fun v => v ≠ ""),
      v ≠ "" ∧ c ∉ v.data := by
    intro v hvmem
    obtain ⟨hmem, hdec⟩ := List.mem_filter.mp hvmem
    exact ⟨of_decide_eq_true hdec, hc v hmem⟩
  obtain ⟨hchain, hhead, hlast⟩ :=
    joinSep_single_char c ((processedValues pattern values).filter (fun v => v ≠ "")) hvs
  rw [hfilter ⟨[c]⟩ hsep]
  refine ⟨fun hinf => ?_, hhead, hlast⟩
  have hcc := List.Chain'.infix hchain hinf
  rw [List.chain'_cons] at hcc
  exact hcc.1 ⟨rfl, rfl⟩

theorem processPattern_no_separator_artifacts_witness :
    preExtensionString "{a}{b}{c}" [("a", "x"), ("b", ""), ("c", "y")] "_" =
      joinSep "_" ((processedValues "{a}{b}{c}" [("a", "x"), ("b", ""), ("c", "y")]).filter
        (fun v => v ≠ "")) ∧
    (¬ ['_', '_'] <:+:
        (preExtensionString "{a}{b}{c}" [("a", "x"), ("b", ""), ("c", "y")] "_").data ∧
      (preExtensionString "{a}{b}{c}" [("a", "x"), ("b", ""), ("c", "y")] "_").data.head? ≠
        some '_' ∧
      (preExtensionString "{a}{b}{c}" [("a", "x"), ("b", ""), ("c", "y")] "_").data.getLast? ≠
        some '_') :=
  ⟨(processPattern_no_separator_artifacts "{a}{b}{c}"
      [("a", "x"), ("b", ""), ("c", "y")]).1 "_" (by decide),
   (processPattern_no_separator_artifacts "{a}{b}{c}"
      [("a", "x"), ("b", ""), ("c", "y")]).2 '_' (by decide)⟩

end Renamer
